import Mathlib

/-!
Verification of the SWIM membership core in `components/swim/src/member.rs`
(habitat). The Rust data structures and the `MemberList` operations are
shallowly embedded below; hash maps become association lists with
replace-on-insert semantics, the `.expect(...)` panic paths become `Option`,
and the RNG shuffle in `pingreq_targets` is modelled by quantifying over an
arbitrary permutation of the member values.
-/

namespace Habitat

abbrev UuidSimple := String

/-- Embedding of the codec-generated `message::swim::Member` record:
id, incarnation (u64, only ever compared in `member.rs`), address string and
the persistent flag. -/
structure ProtoMember where
  id : UuidSimple
  incarnation : Nat
  address : String
  persistent : Bool
deriving DecidableEq, Repr

/-- `member::Member` wraps the protobuf record. -/
structure Member where
  proto : ProtoMember
deriving DecidableEq, Repr

def Member.get_id (m : Member) : UuidSimple := m.proto.id

def Member.get_incarnation (m : Member) : Nat := m.proto.incarnation

/-- `member::Health`. -/
inductive Health where
  | Alive
  | Suspect
  | Confirmed
deriving DecidableEq, Repr

/-- Wire enumeration `Membership_Health` of the codec. -/
inductive ProtoMembership_Health where
  | ALIVE
  | SUSPECT
  | CONFIRMED
deriving DecidableEq, Repr

/-- The codec message `Membership`: a (health, member) snapshot. -/
structure ProtoMembership where
  health : ProtoMembership_Health
  member : ProtoMember
deriving DecidableEq, Repr

/-- `HashMap::get` on an association-list model of the map. -/
def mapGet {α : Type} : List (UuidSimple × α) → UuidSimple → Option α
  | [], _ => none
  | (k, v) :: rest, key => if k = key then some v else mapGet rest key

/-- `HashMap::insert`: replaces the binding of the key when present,
otherwise adds one. -/
def mapInsert {α : Type} : List (UuidSimple × α) → UuidSimple → α → List (UuidSimple × α)
  | [], key, v => [(key, v)]
  | (k, v') :: rest, key, v =>
    if k = key then (key, v) :: rest else (k, v') :: mapInsert rest key v

/-- `member::MemberList`: member map and health map keyed by member id. -/
structure MemberList where
  members : List (UuidSimple × Member)
  health : List (UuidSimple × Health)
deriving DecidableEq, Repr

def MemberList.new : MemberList := { members := [], health := [] }

/-- `MemberList::health_of`. -/
def MemberList.health_of (ml : MemberList) (member : Member) : Option Health :=
  mapGet ml.health member.get_id

/-- The `share_rumor` decision of `MemberList::insert`, exactly as the chain
of conditionals in the source; `none` is the `.expect` panic on a member
record with no health. -/
def MemberList.insertDecision (ml : MemberList) (member : Member) (health : Health) :
    Option Bool :=
  match mapGet ml.members member.get_id with
  | some current_member =>
    if current_member.get_incarnation > member.get_incarnation then
      some false
    else if member.get_incarnation > current_member.get_incarnation then
      some true
    else
      match ml.health_of current_member with
      | none => none
      | some current_health =>
        if current_health = Health.Alive ∧ health = Health.Suspect then some true
        else if current_health = Health.Alive ∧ health = Health.Confirmed then some true
        else if current_health = Health.Alive ∧ health = Health.Alive then some false
        else if current_health = Health.Suspect ∧ health = Health.Alive then some false
        else if current_health = Health.Suspect ∧ health = Health.Suspect then some false
        else if current_health = Health.Suspect ∧ health = Health.Confirmed then some true
        else some false
  | none => some true

/-- `MemberList::insert`: compute `share_rumor`, and when it is true write
both the health and the member record under the member's id. -/
def MemberList.insert (ml : MemberList) (member : Member) (health : Health) :
    Option (Bool × MemberList) :=
  match ml.insertDecision member health with
  | none => none
  | some true =>
    some (true, { members := mapInsert ml.members member.get_id member,
                  health := mapInsert ml.health member.get_id health })
  | some false => some (false, ml)

/-- `MemberList::insert_health`: unconditional local write, no-op when the
stored health already equals the incoming one. -/
def MemberList.insert_health (ml : MemberList) (member : Member) (health : Health) :
    Bool × MemberList :=
  match mapGet ml.health member.get_id with
  | some current_health =>
    if current_health = health then (false, ml)
    else (true, { ml with health := mapInsert ml.health member.get_id health })
  | none => (true, { ml with health := mapInsert ml.health member.get_id health })

/-- The 1:1 map from `Health` to the wire enumeration used by
`membership_for`. -/
def healthToProto : Health → ProtoMembership_Health
  | Health.Alive => ProtoMembership_Health.ALIVE
  | Health.Suspect => ProtoMembership_Health.SUSPECT
  | Health.Confirmed => ProtoMembership_Health.CONFIRMED

/-- `MemberList::membership_for`: build the (health, member) snapshot;
`none` models the two `.expect` panics on an absent health or member. -/
def MemberList.membership_for (ml : MemberList) (member_id : UuidSimple) :
    Option ProtoMembership :=
  match mapGet ml.health member_id with
  | none => none
  | some h =>
    match mapGet ml.members member_id with
    | none => none
    | some member => some { health := healthToProto h, member := member.proto }

/-- `MemberList::members`: the collection of member values. -/
def MemberList.membersList (ml : MemberList) : List Member :=
  ml.members.map Prod.snd

def PINGREQ_TARGETS : Nat := 5

/-- `MemberList::pingreq_targets`, with the `thread_rng` shuffle of
`self.members()` modelled as the explicit argument `shuffled` (an arbitrary
permutation of the member values): filter out the sending and target ids and
take the first `PINGREQ_TARGETS`. -/
def pingreq_targets (shuffled : List Member) (sending_member target_member : Member) :
    List Member :=
  (shuffled.filter (fun m =>
    !(m.get_id == sending_member.get_id) && !(m.get_id == target_member.get_id))).take
    PINGREQ_TARGETS

/-- The (incarnation, health) pair stored for an id, read off the two maps
the way `insert` reads them. -/
def storedPair (ml : MemberList) (id : UuidSimple) : Option (Nat × Health) :=
  match mapGet ml.members id with
  | none => none
  | some mem => (mapGet ml.health id).map (fun h => (mem.get_incarnation, h))

/-- Height of a health verdict in the lattice Alive < Suspect < Confirmed. -/
def healthNum : Health → Nat
  | Health.Alive => 0
  | Health.Suspect => 1
  | Health.Confirmed => 2

/-- One reconciliation step on the stored (incarnation, health) pair: keep
the current pair unless the incoming one is strictly newer (higher
incarnation, or equal incarnation and strictly higher health). -/
def merge1 (c r : Nat × Health) : Nat × Health :=
  if c.1 > r.1 then c
  else if r.1 > c.1 then r
  else if healthNum r.2 > healthNum c.2 then r else c

/-- Linearisation of the (incarnation, health) order used by `merge1`. -/
def pairKey (p : Nat × Health) : Nat := 3 * p.1 + healthNum p.2

/-- `merge1` lifted to a possibly-absent current pair. -/
def combine : Option (Nat × Health) → Nat × Health → Nat × Health
  | none, r => r
  | some c, r => merge1 c r

/-- Run a sequence of `insert` calls; `none` as soon as one panics. -/
def runInserts : MemberList → List (Member × Health) → Option MemberList
  | ml, [] => some ml
  | ml, (m, h) :: rest =>
    match ml.insert m h with
    | none => none
    | some (_, ml') => runInserts ml' rest

/-- The incarnations of the rumors about `id` that were accepted (returned
true) along a run of `insert` calls from `ml`. -/
def acceptedIncs : MemberList → UuidSimple → List (Member × Health) → List Nat
  | _, _, [] => []
  | ml, id, (m, h) :: rest =>
    match ml.insert m h with
    | none => []
    | some (b, ml') =>
      if b = true ∧ m.get_id = id then m.get_incarnation :: acceptedIncs ml' id rest
      else acceptedIncs ml' id rest

/-- The incarnation stored for an id, when present. -/
def storedInc (ml : MemberList) (id : UuidSimple) : Option Nat :=
  (mapGet ml.members id).map Member.get_incarnation

/-- Maximum of an optional running value and a new value. -/
def omax : Option Nat → Nat → Option Nat
  | none, x => some x
  | some a, x => some (max a x)

/-- States reachable from `MemberList::new` by the public mutating
operations `insert` and `insert_health` (a panicking `insert` yields no
successor state). -/
inductive Reachable : MemberList → Prop where
  | new : Reachable MemberList.new
  | ins : ∀ {ml : MemberList} {m : Member} {h : Health} {b : Bool} {ml' : MemberList},
      Reachable ml → ml.insert m h = some (b, ml') → Reachable ml'
  | insH : ∀ {ml : MemberList} {m : Member} {h : Health} {b : Bool} {ml' : MemberList},
      Reachable ml → ml.insert_health m h = (b, ml') → Reachable ml'

/-! ### Concrete members used by witnesses and counterexamples -/

def exMemberA : Member := ⟨⟨"a", 0, "10.0.0.1:4000", false⟩⟩

def exMemberA1 : Member := ⟨⟨"a", 1, "10.0.0.1:4000", false⟩⟩

def exMemberA9 : Member := ⟨⟨"a", 0, "10.0.0.9:4000", false⟩⟩

def exMemberB : Member := ⟨⟨"b", 0, "10.0.0.2:4000", false⟩⟩

def exMemberC : Member := ⟨⟨"c", 0, "10.0.0.3:4000", false⟩⟩

/-! ### Association-list map lemmas -/

theorem mapGet_mapInsert_self {α : Type} (l : List (UuidSimple × α)) (k : UuidSimple) (v : α) :
    mapGet (mapInsert l k v) k = some v := by
  induction l with
  | nil => simp [mapInsert, mapGet]
  | cons p rest ih =>
    obtain ⟨k', v'⟩ := p
    by_cases hk : k' = k
    · simp [mapInsert, hk, mapGet]
    · simp [mapInsert, hk, mapGet, ih]

theorem mapGet_mapInsert_ne {α : Type} (l : List (UuidSimple × α)) (k key : UuidSimple) (v : α)
    (h : key ≠ k) : mapGet (mapInsert l k v) key = mapGet l key := by
  have hne : ¬ k = key := fun hh => h hh.symm
  induction l with
  | nil => simp [mapInsert, mapGet, hne]
  | cons p rest ih =>
    obtain ⟨k', v'⟩ := p
    by_cases hk : k' = k
    · subst hk
      simp [mapInsert, mapGet, hne]
    · by_cases hkey : k' = key
      · subst hkey
        simp [mapInsert, mapGet, hk, hne]
      · simp [mapInsert, hk, mapGet, hkey, ih]

/-! ### Shape lemmas for `insert` -/

/-- A returning `insert` either rejected and left the list untouched, or
accepted and wrote both maps under the member's id. -/
theorem insert_cases (ml : MemberList) (m : Member) (h : Health) (r : Bool × MemberList)
    (hres : ml.insert m h = some r) :
    (r = (false, ml)) ∨
    (r = (true, { members := mapInsert ml.members m.get_id m,
                  health := mapInsert ml.health m.get_id h })) := by
  unfold MemberList.insert at hres
  cases hdec : ml.insertDecision m h with
  | none => rw [hdec] at hres; exact absurd hres (by simp)
  | some b =>
    rw [hdec] at hres
    cases b with
    | false => left; simpa using hres.symm
    | true => right; simpa using hres.symm

/-- An accepted rumor about an id already present carries an incarnation at
least the stored one. -/
theorem insert_true_ge (ml : MemberList) (m : Member) (h : Health) (ml' : MemberList)
    (hres : ml.insert m h = some (true, ml')) (cur : Member)
    (hcur : mapGet ml.members m.get_id = some cur) :
    cur.get_incarnation ≤ m.get_incarnation := by
  unfold MemberList.insert at hres
  cases hdec : ml.insertDecision m h with
  | none => rw [hdec] at hres; exact absurd hres (by simp)
  | some b =>
    rw [hdec] at hres
    cases b with
    | false => simp at hres
    | true =>
      unfold MemberList.insertDecision at hdec
      rw [hcur] at hdec
      by_cases h1 : cur.get_incarnation > m.get_incarnation
      · simp [h1] at hdec
      · omega

/-- C1: `insert` follows the decision table: a stored incarnation above the
incoming one rejects with no update; a strictly higher incoming incarnation
accepts and replaces member record and health; at equal incarnations it
accepts and stores the incoming pair exactly for (Alive, Suspect),
(Alive, Confirmed) and (Suspect, Confirmed), and rejects with no update in
every other equal-incarnation case (Confirmed current included); an absent
id accepts and stores the pair. The returned boolean is the acceptance. -/
theorem insert_decision_table (ml : MemberList) (m : Member) (h : Health) :
    (mapGet ml.members m.get_id = none →
      ml.insert m h = some (true,
        { members := mapInsert ml.members m.get_id m,
          health := mapInsert ml.health m.get_id h })) ∧
    (∀ cur ch, mapGet ml.members m.get_id = some cur → cur.get_id = m.get_id →
      mapGet ml.health m.get_id = some ch →
      ((cur.get_incarnation > m.get_incarnation → ml.insert m h = some (false, ml)) ∧
       (m.get_incarnation > cur.get_incarnation →
         ml.insert m h = some (true,
           { members := mapInsert ml.members m.get_id m,
             health := mapInsert ml.health m.get_id h })) ∧
       (cur.get_incarnation = m.get_incarnation →
         (((ch = Health.Alive ∧ h = Health.Suspect) ∨
           (ch = Health.Alive ∧ h = Health.Confirmed) ∨
           (ch = Health.Suspect ∧ h = Health.Confirmed)) →
           ml.insert m h = some (true,
             { members := mapInsert ml.members m.get_id m,
               health := mapInsert ml.health m.get_id h })) ∧
         (¬ ((ch = Health.Alive ∧ h = Health.Suspect) ∨
             (ch = Health.Alive ∧ h = Health.Confirmed) ∨
             (ch = Health.Suspect ∧ h = Health.Confirmed)) →
           ml.insert m h = some (false, ml))))) := by
  refine ⟨?_, ?_⟩
  · intro habs
    simp [MemberList.insert, MemberList.insertDecision, habs]
  · intro cur ch hcur hck hch
    have hho : ml.health_of cur = some ch := by
      unfold MemberList.health_of
      rw [hck, hch]
    refine ⟨?_, ?_, ?_⟩
    · intro hgt
      simp [MemberList.insert, MemberList.insertDecision, hcur, hgt]
    · intro hgt
      have hngt : ¬ cur.get_incarnation > m.get_incarnation := by omega
      simp [MemberList.insert, MemberList.insertDecision, hcur, hngt, hgt]
    · intro heq
      have h1 : ¬ cur.get_incarnation > m.get_incarnation := by omega
      have h2 : ¬ m.get_incarnation > cur.get_incarnation := by omega
      constructor
      · intro hacc
        cases ch <;> cases h <;>
          simp_all [MemberList.insert, MemberList.insertDecision, hcur, h1, h2, hho]
      · intro hrej
        cases ch <;> cases h <;>
          simp_all [MemberList.insert, MemberList.insertDecision, hcur, h1, h2, hho]

/-- Witness for C1 at a concrete input: inserting a fresh member is accepted
and stores the pair. -/
theorem insert_decision_table_witness :
    MemberList.new.insert exMemberA Health.Alive =
      some (true, { members := mapInsert MemberList.new.members exMemberA.get_id exMemberA,
                    health := mapInsert MemberList.new.health exMemberA.get_id Health.Alive }) :=
  (insert_decision_table MemberList.new exMemberA Health.Alive).1 rfl

/-- C10: an `insert` that returns false leaves the MemberList untouched:
the state is equal to the one before the call, so every id keeps its stored
member record (address, incarnation and persistent flag included) and its
stored health. -/
theorem insert_reject_frame (ml : MemberList) (m : Member) (h : Health) (ml' : MemberList)
    (hres : ml.insert m h = some (false, ml')) :
    ml' = ml ∧
    ∀ id, mapGet ml'.members id = mapGet ml.members id ∧
      mapGet ml'.health id = mapGet ml.health id := by
  rcases insert_cases ml m h (false, ml') hres with hcase | hcase
  · have : ml' = ml := congrArg Prod.snd hcase
    exact ⟨this, fun id => by rw [this]; exact ⟨rfl, rfl⟩⟩
  · exact absurd (congrArg Prod.fst hcase) (by simp)

/-- Witness for C10: re-inserting an already stored (Alive, Alive) rumor is
rejected and changes nothing. -/
theorem insert_reject_frame_witness :
    (((MemberList.new.insert exMemberA Health.Alive).getD (false, MemberList.new)).2.insert
        exMemberA Health.Alive = some (false,
          ((MemberList.new.insert exMemberA Health.Alive).getD (false, MemberList.new)).2)) ∧
    (((MemberList.new.insert exMemberA Health.Alive).getD (false, MemberList.new)).2 =
      ((MemberList.new.insert exMemberA Health.Alive).getD (false, MemberList.new)).2) := by
  refine ⟨by decide, ?_⟩
  exact (insert_reject_frame
    ((MemberList.new.insert exMemberA Health.Alive).getD (false, MemberList.new)).2
    exMemberA Health.Alive
    ((MemberList.new.insert exMemberA Health.Alive).getD (false, MemberList.new)).2
    (by decide)).1 ▸ rfl

/-- C3: Confirmed is absorbing at its incarnation: when the stored entry for
the member's id is Confirmed at incarnation `i` and the incoming incarnation
is at most `i` (so in particular equal), `insert` returns false and leaves
the list untouched; only a strictly higher incoming incarnation can change
the entry. -/
theorem confirmed_absorbing (ml : MemberList) (m : Member) (h : Health) (cur : Member)
    (hcur : mapGet ml.members m.get_id = some cur) (hck : cur.get_id = m.get_id)
    (hch : mapGet ml.health m.get_id = some Health.Confirmed)
    (hle : m.get_incarnation ≤ cur.get_incarnation) :
    ml.insert m h = some (false, ml) := by
  rcases Nat.lt_or_ge m.get_incarnation cur.get_incarnation with hlt | hge
  · exact ((insert_decision_table ml m h).2 cur Health.Confirmed hcur hck hch).1 hlt
  · have heq : cur.get_incarnation = m.get_incarnation := by omega
    refine (((insert_decision_table ml m h).2 cur Health.Confirmed hcur hck hch).2.2 heq).2 ?_
    rintro (⟨hc, _⟩ | ⟨hc, _⟩ | ⟨hc, _⟩) <;> exact absurd hc (by simp)

/-- Witness for C3: a Suspect rumor at the stored incarnation against a
Confirmed entry is rejected. -/
theorem confirmed_absorbing_witness :
    (((MemberList.new.insert exMemberA Health.Confirmed).getD (false, MemberList.new)).2.insert
      exMemberA Health.Suspect) = some (false,
        ((MemberList.new.insert exMemberA Health.Confirmed).getD (false, MemberList.new)).2) :=
  confirmed_absorbing
    ((MemberList.new.insert exMemberA Health.Confirmed).getD (false, MemberList.new)).2
    exMemberA Health.Suspect exMemberA (by decide) rfl (by decide) (by decide)

/-- C4: when the member's id is already present, `insert` returns true
exactly when the stored (incarnation, health) pair after the call differs
from the pair before it; when the id is absent, `insert` returns true even
though only the key is novel. -/
theorem insert_gossip_agreement (ml : MemberList) (m : Member) (h : Health) :
    (∀ cur ch, mapGet ml.members m.get_id = some cur → cur.get_id = m.get_id →
      mapGet ml.health m.get_id = some ch →
      ∃ b ml', ml.insert m h = some (b, ml') ∧
        (b = true ↔ storedPair ml' m.get_id ≠ some (cur.get_incarnation, ch))) ∧
    (mapGet ml.members m.get_id = none →
      ∃ ml', ml.insert m h = some (true, ml')) := by
  constructor
  · intro cur ch hcur hck hch
    have htab := (insert_decision_table ml m h).2 cur ch hcur hck hch
    have hsp2 : storedPair
        { members := mapInsert ml.members m.get_id m,
          health := mapInsert ml.health m.get_id h } m.get_id =
        some (m.get_incarnation, h) := by
      unfold storedPair
      simp only [mapGet_mapInsert_self]
      rfl
    have hsp1 : storedPair ml m.get_id = some (cur.get_incarnation, ch) := by
      unfold storedPair
      rw [hcur, hch]
      rfl
    rcases Nat.lt_trichotomy cur.get_incarnation m.get_incarnation with hlt | heq | hgt
    · refine ⟨true, _, htab.2.1 hlt, ?_⟩
      rw [hsp2]
      simp only [true_iff, Ne, Option.some.injEq, Prod.mk.injEq, not_and]
      intro hc
      omega
    · by_cases hacc : (ch = Health.Alive ∧ h = Health.Suspect) ∨
        (ch = Health.Alive ∧ h = Health.Confirmed) ∨
        (ch = Health.Suspect ∧ h = Health.Confirmed)
      · refine ⟨true, _, (htab.2.2 heq).1 hacc, ?_⟩
        rw [hsp2]
        simp only [true_iff, Ne, Option.some.injEq, Prod.mk.injEq, not_and]
        intro _ hh
        rcases hacc with ⟨hc1, hc2⟩ | ⟨hc1, hc2⟩ | ⟨hc1, hc2⟩ <;> subst hc1 <;> subst hc2 <;>
          exact absurd hh (by simp)
      · refine ⟨false, ml, (htab.2.2 heq).2 hacc, ?_⟩
        rw [hsp1]
        simp
    · refine ⟨false, ml, htab.1 hgt, ?_⟩
      rw [hsp1]
      simp
  · intro habs
    exact ⟨_, (insert_decision_table ml m h).1 habs⟩

/-- Witness for C4: against a stored (0, Alive) entry for "a", a Suspect
rumor at incarnation 0 returns true and the stored pair indeed changes. -/
theorem insert_gossip_agreement_witness :
    ∃ b ml', ({ members := [("a", exMemberA)], health := [("a", Health.Alive)] } :
        MemberList).insert exMemberA Health.Suspect = some (b, ml') ∧
      (b = true ↔ storedPair ml' exMemberA.get_id ≠
        some (exMemberA.get_incarnation, Health.Alive)) :=
  (insert_gossip_agreement
    { members := [("a", exMemberA)], health := [("a", Health.Alive)] }
    exMemberA Health.Suspect).1 exMemberA Health.Alive (by decide) rfl (by decide)

/-! ### The equal-incarnation acceptance condition as a lattice comparison -/

theorem healthNum_le_two (x : Health) : healthNum x ≤ 2 := by
  cases x <;> simp [healthNum]

theorem healthNum_inj (a b : Health) (h : healthNum a = healthNum b) : a = b := by
  cases a <;> cases b <;> simp_all [healthNum]

theorem accept_iff_healthNum (ch h : Health) :
    ((ch = Health.Alive ∧ h = Health.Suspect) ∨
     (ch = Health.Alive ∧ h = Health.Confirmed) ∨
     (ch = Health.Suspect ∧ h = Health.Confirmed)) ↔ healthNum ch < healthNum h := by
  cases ch <;> cases h <;> decide

theorem merge1_eq_key (c r : Nat × Health) :
    merge1 c r = if pairKey c < pairKey r then r else c := by
  have hc := healthNum_le_two c.2
  have hr := healthNum_le_two r.2
  unfold merge1 pairKey
  split_ifs <;> first | rfl | (exfalso; omega)

theorem pairKey_inj (a b : Nat × Health) (h : pairKey a = pairKey b) : a = b := by
  obtain ⟨a1, a2⟩ := a
  obtain ⟨b1, b2⟩ := b
  have ha := healthNum_le_two a2
  have hb := healthNum_le_two b2
  unfold pairKey at h
  simp only at h ha hb
  have h1 : a1 = b1 := by omega
  have h2 : healthNum a2 = healthNum b2 := by omega
  rw [h1, healthNum_inj a2 b2 h2]

theorem merge1_comm (a b : Nat × Health) : merge1 a b = merge1 b a := by
  rw [merge1_eq_key, merge1_eq_key]
  split_ifs <;> first | rfl | (exact pairKey_inj _ _ (by omega)) | (exfalso; omega)

theorem merge1_assoc (a b c : Nat × Health) :
    merge1 (merge1 a b) c = merge1 a (merge1 b c) := by
  simp only [merge1_eq_key]
  split_ifs <;> first | rfl | (exact pairKey_inj _ _ (by omega)) | (exfalso; omega)

theorem merge1_right_comm (c r1 r2 : Nat × Health) :
    merge1 (merge1 c r1) r2 = merge1 (merge1 c r2) r1 := by
  rw [merge1_assoc, merge1_assoc, merge1_comm r1 r2]

theorem combine_right_comm (p : Option (Nat × Health)) (r1 r2 : Nat × Health) :
    combine (some (combine p r1)) r2 = combine (some (combine p r2)) r1 := by
  cases p with
  | none => exact merge1_comm r1 r2
  | some c => exact merge1_right_comm c r1 r2

theorem merge1_keep (c r : Nat × Health) (hgt : r.1 < c.1) : merge1 c r = c := by
  unfold merge1
  rw [if_pos hgt]

theorem merge1_take (c r : Nat × Health) (hlt : c.1 < r.1) : merge1 c r = r := by
  unfold merge1
  rw [if_neg (by omega), if_pos hlt]

theorem merge1_eq_take (c r : Nat × Health) (heq : c.1 = r.1)
    (hh : healthNum c.2 < healthNum r.2) : merge1 c r = r := by
  unfold merge1
  rw [if_neg (by omega), if_neg (by omega), if_pos hh]

theorem merge1_eq_keep (c r : Nat × Health) (heq : c.1 = r.1)
    (hh : ¬ healthNum c.2 < healthNum r.2) : merge1 c r = c := by
  unfold merge1
  rw [if_neg (by omega), if_neg (by omega), if_neg hh]

/-- One `insert` call, seen through the stored (incarnation, health) pair of
the member's id: the call returns, the new pair is `combine` of the old pair
and the rumor's pair, every other id is untouched, and the well-formedness
facts at the id are preserved. -/
theorem insert_combine (ml : MemberList) (m : Member) (h : Health)
    (hkc : ∀ cur, mapGet ml.members m.get_id = some cur → cur.get_id = m.get_id)
    (hcoh : ∀ cur, mapGet ml.members m.get_id = some cur →
      ∃ ch, mapGet ml.health m.get_id = some ch) :
    ∃ b ml', ml.insert m h = some (b, ml') ∧
      storedPair ml' m.get_id =
        some (combine (storedPair ml m.get_id) (m.get_incarnation, h)) ∧
      (∀ k, k ≠ m.get_id → mapGet ml'.members k = mapGet ml.members k ∧
        mapGet ml'.health k = mapGet ml.health k) ∧
      (∀ cur, mapGet ml'.members m.get_id = some cur → cur.get_id = m.get_id) ∧
      (∀ cur, mapGet ml'.members m.get_id = some cur →
        ∃ ch, mapGet ml'.health m.get_id = some ch) := by
  have hsp2 : storedPair
      { members := mapInsert ml.members m.get_id m,
        health := mapInsert ml.health m.get_id h } m.get_id =
      some (m.get_incarnation, h) := by
    unfold storedPair
    simp only [mapGet_mapInsert_self]
    rfl
  have hframe2 : ∀ k, k ≠ m.get_id →
      mapGet (mapInsert ml.members m.get_id m) k = mapGet ml.members k ∧
      mapGet (mapInsert ml.health m.get_id h) k = mapGet ml.health k :=
    fun k hk => ⟨mapGet_mapInsert_ne _ _ _ _ hk, mapGet_mapInsert_ne _ _ _ _ hk⟩
  have hkc2 : ∀ cur, mapGet (mapInsert ml.members m.get_id m) m.get_id = some cur →
      cur.get_id = m.get_id := by
    intro cur hc
    rw [mapGet_mapInsert_self] at hc
    cases hc
    rfl
  have hcoh2 : ∀ cur, mapGet (mapInsert ml.members m.get_id m) m.get_id = some cur →
      ∃ ch, mapGet (mapInsert ml.health m.get_id h) m.get_id = some ch :=
    fun _ _ => ⟨h, mapGet_mapInsert_self _ _ _⟩
  cases hcur : mapGet ml.members m.get_id with
  | none =>
    refine ⟨true, _, (insert_decision_table ml m h).1 hcur, ?_, hframe2, hkc2, hcoh2⟩
    rw [hsp2]
    unfold storedPair
    rw [hcur]
    rfl
  | some cur =>
    obtain ⟨ch, hch⟩ := hcoh cur hcur
    have hck := hkc cur hcur
    have htab := (insert_decision_table ml m h).2 cur ch hcur hck hch
    have hsp1 : storedPair ml m.get_id = some (cur.get_incarnation, ch) := by
      unfold storedPair
      rw [hcur, hch]
      rfl
    rcases Nat.lt_trichotomy cur.get_incarnation m.get_incarnation with hlt | heq | hgt
    · refine ⟨true, _, htab.2.1 hlt, ?_, hframe2, hkc2, hcoh2⟩
      rw [hsp2, hsp1]
      simp only [combine]
      rw [merge1_take _ _ hlt]
    · by_cases hacc : (ch = Health.Alive ∧ h = Health.Suspect) ∨
        (ch = Health.Alive ∧ h = Health.Confirmed) ∨
        (ch = Health.Suspect ∧ h = Health.Confirmed)
      · have hnum := (accept_iff_healthNum ch h).mp hacc
        refine ⟨true, _, (htab.2.2 heq).1 hacc, ?_, hframe2, hkc2, hcoh2⟩
        rw [hsp2, hsp1]
        simp only [combine]
        rw [merge1_eq_take _ _ heq hnum]
      · have hnum : ¬ healthNum ch < healthNum h :=
          fun hlt2 => hacc ((accept_iff_healthNum ch h).mpr hlt2)
        refine ⟨false, ml, (htab.2.2 heq).2 hacc, ?_, fun k _ => ⟨rfl, rfl⟩, hkc, hcoh⟩
        rw [hsp1]
        simp only [combine]
        rw [merge1_eq_keep _ _ heq hnum]
    · refine ⟨false, ml, htab.1 hgt, ?_, fun k _ => ⟨rfl, rfl⟩, hkc, hcoh⟩
      rw [hsp1]
      simp only [combine]
      rw [merge1_keep _ _ hgt]

/-- C6 counterexample: two Alive rumors about id "a" at equal incarnation 0
with different addresses, from the empty list. Each order keeps the record
of whichever rumor came first (the second is rejected), so the two final
MemberList states differ in the stored member record. -/
theorem merge_commutativity_cex :
    (((MemberList.new.insert exMemberA Health.Alive).getD (false, MemberList.new)).2.insert
        exMemberA9 Health.Alive =
      some (false, { members := [("a", exMemberA)], health := [("a", Health.Alive)] })) ∧
    (((MemberList.new.insert exMemberA9 Health.Alive).getD (false, MemberList.new)).2.insert
        exMemberA Health.Alive =
      some (false, { members := [("a", exMemberA9)], health := [("a", Health.Alive)] })) ∧
    ({ members := [("a", exMemberA)], health := [("a", Health.Alive)] } : MemberList) ≠
      { members := [("a", exMemberA9)], health := [("a", Health.Alive)] } := by
  decide

/-- C6 (amended): inserting two rumors about the same id in either order
yields the same stored incarnation and health for that id and identical
member and health entries at every other id; the stored member record at
that id itself may differ between the two orders when the rejected rumor
carried a different record (see the counterexample), and the boolean
returns may differ. -/
theorem merge_pair_commutes (ml : MemberList) (m1 m2 : Member) (h1 h2 : Health)
    (hid : m2.get_id = m1.get_id)
    (hkc : ∀ cur, mapGet ml.members m1.get_id = some cur → cur.get_id = m1.get_id)
    (hcoh : ∀ cur, mapGet ml.members m1.get_id = some cur →
      ∃ ch, mapGet ml.health m1.get_id = some ch) :
    ∃ bA mlA bA2 mlA2 bB mlB bB2 mlB2,
      ml.insert m1 h1 = some (bA, mlA) ∧ mlA.insert m2 h2 = some (bA2, mlA2) ∧
      ml.insert m2 h2 = some (bB, mlB) ∧ mlB.insert m1 h1 = some (bB2, mlB2) ∧
      storedPair mlA2 m1.get_id = storedPair mlB2 m1.get_id ∧
      ∀ k, k ≠ m1.get_id → mapGet mlA2.members k = mapGet mlB2.members k ∧
        mapGet mlA2.health k = mapGet mlB2.health k := by
  obtain ⟨bA, mlA, hA, hpA, hfA, hkcA, hcohA⟩ := insert_combine ml m1 h1 hkc hcoh
  have hkcA2 : ∀ cur, mapGet mlA.members m2.get_id = some cur → cur.get_id = m2.get_id := by
    rw [hid]; exact hkcA
  have hcohA2 : ∀ cur, mapGet mlA.members m2.get_id = some cur →
      ∃ ch, mapGet mlA.health m2.get_id = some ch := by
    rw [hid]; exact hcohA
  obtain ⟨bA2, mlA2, hA2, hpA2, hfA2, _, _⟩ := insert_combine mlA m2 h2 hkcA2 hcohA2
  have hkcB : ∀ cur, mapGet ml.members m2.get_id = some cur → cur.get_id = m2.get_id := by
    rw [hid]; exact hkc
  have hcohB : ∀ cur, mapGet ml.members m2.get_id = some cur →
      ∃ ch, mapGet ml.health m2.get_id = some ch := by
    rw [hid]; exact hcoh
  obtain ⟨bB, mlB, hB, hpB, hfB, hkcB2, hcohB2⟩ := insert_combine ml m2 h2 hkcB hcohB
  have hkcB3 : ∀ cur, mapGet mlB.members m1.get_id = some cur → cur.get_id = m1.get_id := by
    rw [← hid]; exact hkcB2
  have hcohB3 : ∀ cur, mapGet mlB.members m1.get_id = some cur →
      ∃ ch, mapGet mlB.health m1.get_id = some ch := by
    rw [← hid]; exact hcohB2
  obtain ⟨bB2, mlB2, hB2, hpB2, hfB2, _, _⟩ := insert_combine mlB m1 h1 hkcB3 hcohB3
  refine ⟨bA, mlA, bA2, mlA2, bB, mlB, bB2, mlB2, hA, hA2, hB, hB2, ?_, ?_⟩
  · rw [hid] at hpA2 hpB
    rw [hpA2, hpB2, hpA, hpB]
    exact congrArg some (combine_right_comm (storedPair ml m1.get_id)
      (m1.get_incarnation, h1) (m2.get_incarnation, h2))
  · intro k hk
    have hk2 : k ≠ m2.get_id := by rw [hid]; exact hk
    obtain ⟨hm1, hh1⟩ := hfA k hk
    obtain ⟨hm2, hh2⟩ := hfA2 k hk2
    obtain ⟨hm3, hh3⟩ := hfB k hk2
    obtain ⟨hm4, hh4⟩ := hfB2 k hk
    exact ⟨by rw [hm2, hm1, ← hm3, ← hm4], by rw [hh2, hh1, ← hh3, ← hh4]⟩

/-- Witness for C6 (amended) at the counterexample input: both orders agree
on the stored (incarnation, health) of "a" and on every other id. -/
theorem merge_pair_commutes_witness :
    ∃ bA mlA bA2 mlA2 bB mlB bB2 mlB2,
      MemberList.new.insert exMemberA Health.Alive = some (bA, mlA) ∧
      mlA.insert exMemberA9 Health.Alive = some (bA2, mlA2) ∧
      MemberList.new.insert exMemberA9 Health.Alive = some (bB, mlB) ∧
      mlB.insert exMemberA Health.Alive = some (bB2, mlB2) ∧
      storedPair mlA2 exMemberA.get_id = storedPair mlB2 exMemberA.get_id ∧
      ∀ k, k ≠ exMemberA.get_id → mapGet mlA2.members k = mapGet mlB2.members k ∧
        mapGet mlA2.health k = mapGet mlB2.health k :=
  merge_pair_commutes MemberList.new exMemberA exMemberA9 Health.Alive Health.Alive rfl
    (fun cur hc => by simp [mapGet, MemberList.new] at hc)
    (fun cur hc => by simp [mapGet, MemberList.new] at hc)

/-- A single `insert` never decreases the incarnation stored for any id. -/
theorem insert_mono_step (ml : MemberList) (m : Member) (h : Health) (b : Bool)
    (ml2 : MemberList) (hres : ml.insert m h = some (b, ml2)) (id : UuidSimple)
    (cur cur2 : Member) (hcur : mapGet ml.members id = some cur)
    (hcur2 : mapGet ml2.members id = some cur2) :
    cur.get_incarnation ≤ cur2.get_incarnation := by
  rcases insert_cases ml m h (b, ml2) hres with hcase | hcase
  · have hml : ml2 = ml := congrArg Prod.snd hcase
    rw [hml, hcur] at hcur2
    cases hcur2
    exact le_refl _
  · have hb : b = true := congrArg Prod.fst hcase
    have hml : ml2 = { members := mapInsert ml.members m.get_id m,
                       health := mapInsert ml.health m.get_id h } := congrArg Prod.snd hcase
    subst hb
    by_cases hidm : id = m.get_id
    · subst hidm
      rw [hml] at hcur2
      simp only [mapGet_mapInsert_self] at hcur2
      cases hcur2
      exact insert_true_ge ml m h _ hres cur hcur
    · rw [hml] at hcur2
      simp only at hcur2
      rw [mapGet_mapInsert_ne _ _ _ _ hidm, hcur] at hcur2
      cases hcur2
      exact le_refl _

/-- Running `insert` calls accumulates the stored incarnation of each id as
the running maximum of the initial stored value and the incarnations of the
accepted rumors about that id. -/
theorem runInserts_storedInc (ops : List (Member × Health)) :
    ∀ ml0 ml, runInserts ml0 ops = some ml → ∀ id,
      storedInc ml id = (acceptedIncs ml0 id ops).foldl omax (storedInc ml0 id) := by
  induction ops with
  | nil =>
    intro ml0 ml hrun id
    simp only [runInserts, Option.some.injEq] at hrun
    subst hrun
    rfl
  | cons p rest ih =>
    obtain ⟨m, h⟩ := p
    intro ml0 ml hrun id
    cases hins : ml0.insert m h with
    | none =>
      simp only [runInserts, hins] at hrun
      exact absurd hrun (by simp)
    | some r =>
      obtain ⟨b, ml1⟩ := r
      simp only [runInserts, hins] at hrun
      simp only [acceptedIncs, hins]
      by_cases hcond : b = true ∧ m.get_id = id
      · obtain ⟨hb, hid⟩ := hcond
        subst hb
        subst hid
        rw [if_pos ⟨rfl, rfl⟩]
        have hstored1 : storedInc ml1 m.get_id = some m.get_incarnation := by
          rcases insert_cases ml0 m h (true, ml1) hins with hcase | hcase
          · exact absurd (congrArg Prod.fst hcase) (by simp)
          · have hml : ml1 = { members := mapInsert ml0.members m.get_id m,
                               health := mapInsert ml0.health m.get_id h } :=
              congrArg Prod.snd hcase
            rw [hml]
            unfold storedInc
            simp only [mapGet_mapInsert_self]
            rfl
        have homax : omax (storedInc ml0 m.get_id) m.get_incarnation =
            some m.get_incarnation := by
          cases hc0 : mapGet ml0.members m.get_id with
          | none => unfold storedInc; rw [hc0]; rfl
          | some cur0 =>
            have hge := insert_true_ge ml0 m h ml1 hins cur0 hc0
            unfold storedInc
            rw [hc0]
            show some (max cur0.get_incarnation m.get_incarnation) = some m.get_incarnation
            rw [Nat.max_eq_right hge]
        rw [List.foldl_cons, homax, ← hstored1]
        exact ih ml1 ml hrun m.get_id
      · rw [if_neg hcond]
        have hstable : storedInc ml1 id = storedInc ml0 id := by
          rcases insert_cases ml0 m h (b, ml1) hins with hcase | hcase
          · have hml : ml1 = ml0 := congrArg Prod.snd hcase
            rw [hml]
          · have hb : b = true := congrArg Prod.fst hcase
            have hml : ml1 = { members := mapInsert ml0.members m.get_id m,
                               health := mapInsert ml0.health m.get_id h } :=
              congrArg Prod.snd hcase
            have hid : ¬ m.get_id = id := fun hh => hcond ⟨hb, hh⟩
            rw [hml]
            unfold storedInc
            simp only
            rw [mapGet_mapInsert_ne _ _ _ _ (fun hh => hid hh.symm)]
        rw [← hstable]
        exact ih ml1 ml hrun id

/-- Folding `omax` computes a maximum: the result is among the inputs and
bounds them all. -/
theorem foldl_omax_spec (l : List Nat) :
    ∀ o v, l.foldl omax o = some v →
      (o = some v ∨ v ∈ l) ∧ (∀ a, o = some a → a ≤ v) ∧ ∀ x ∈ l, x ≤ v := by
  induction l with
  | nil =>
    intro o v h
    simp only [List.foldl_nil] at h
    exact ⟨Or.inl h, fun a ha => by rw [h] at ha; cases ha; exact le_refl _,
      fun x hx => absurd hx (List.not_mem_nil x)⟩
  | cons x t ih =>
    intro o v h
    rw [List.foldl_cons] at h
    obtain ⟨h1, h2, h3⟩ := ih (omax o x) v h
    have hxv : x ≤ v := by
      cases o with
      | none => exact h2 x rfl
      | some a =>
        have := h2 (max a x) rfl
        omega
    refine ⟨?_, ?_, ?_⟩
    · rcases h1 with h1 | h1
      · cases o with
        | none =>
          simp only [omax, Option.some.injEq] at h1
          exact Or.inr (h1 ▸ List.mem_cons_self x t)
        | some a =>
          simp only [omax, Option.some.injEq] at h1
          rcases Nat.le_total a x with hax | hax
          · rw [Nat.max_eq_right hax] at h1
            exact Or.inr (h1 ▸ List.mem_cons_self x t)
          · rw [Nat.max_eq_left hax] at h1
            exact Or.inl (congrArg some h1)
      · exact Or.inr (List.mem_cons_of_mem x h1)
    · intro a ha
      subst ha
      have := h2 (max a x) rfl
      omega
    · intro y hy
      rcases List.mem_cons.mp hy with hy | hy
      · exact hy ▸ hxv
      · exact h3 y hy

/-- C2: along any sequence of `insert` calls from `MemberList::new`, no
call decreases the incarnation stored for an id, and for every id present
at the end the stored incarnation is exactly the maximum incarnation among
the accepted rumors about that id. -/
theorem monotonic_incarnation (ops : List (Member × Health)) (ml : MemberList)
    (hrun : runInserts MemberList.new ops = some ml) :
    (∀ m h b ml2 id cur cur2, ml.insert m h = some (b, ml2) →
      mapGet ml.members id = some cur → mapGet ml2.members id = some cur2 →
      cur.get_incarnation ≤ cur2.get_incarnation) ∧
    (∀ id cur, mapGet ml.members id = some cur →
      cur.get_incarnation ∈ acceptedIncs MemberList.new id ops ∧
      ∀ x ∈ acceptedIncs MemberList.new id ops, x ≤ cur.get_incarnation) := by
  constructor
  · intro m h b ml2 id cur cur2 hres hcur hcur2
    exact insert_mono_step ml m h b ml2 hres id cur cur2 hcur hcur2
  · intro id cur hcur
    have hL := runInserts_storedInc ops MemberList.new ml hrun id
    have h0 : storedInc MemberList.new id = none := rfl
    rw [h0] at hL
    have hv : storedInc ml id = some cur.get_incarnation := by
      unfold storedInc
      rw [hcur]
      rfl
    rw [hv] at hL
    obtain ⟨h1, _, h3⟩ := foldl_omax_spec (acceptedIncs MemberList.new id ops)
      none cur.get_incarnation hL.symm
    rcases h1 with h1 | h1
    · exact absurd h1 (by simp)
    · exact ⟨h1, h3⟩

/-- Witness for C2 on the one-step trace inserting ("a", incarnation 0,
Alive): the stored incarnation 0 is the (only) accepted incarnation. -/
theorem monotonic_incarnation_witness :
    exMemberA.get_incarnation ∈
      acceptedIncs MemberList.new "a" [(exMemberA, Health.Alive)] :=
  ((monotonic_incarnation [(exMemberA, Health.Alive)]
      { members := [("a", exMemberA)], health := [("a", Health.Alive)] } (by decide)).2
    "a" exMemberA (by decide)).1

theorem two_mem_le_length {α : Type} (l : List α) (a b : α) (ha : a ∈ l) (hb : b ∈ l)
    (hab : a ≠ b) : 2 ≤ l.length := by
  cases l with
  | nil => exact absurd ha (List.not_mem_nil a)
  | cons x t =>
    simp only [List.length_cons]
    rcases List.mem_cons.mp ha with h1 | h1
    · rcases List.mem_cons.mp hb with h2 | h2
      · exact absurd (h1.trans h2.symm) hab
      · have := List.length_pos_of_mem h2
        omega
    · have := List.length_pos_of_mem h1
      omega

theorem filter_excl_all (l : List Member) (a b : UuidSimple)
    (ha : a ∉ l.map Member.get_id) (hb : b ∉ l.map Member.get_id) :
    l.filter (fun mem => !(mem.get_id == a) && !(mem.get_id == b)) = l := by
  induction l with
  | nil => rfl
  | cons x t ih =>
    simp only [List.map_cons, List.mem_cons, not_or] at ha hb
    have hpred : (!(x.get_id == a) && !(x.get_id == b)) = true := by
      simp only [Bool.and_eq_true, Bool.not_eq_true', beq_eq_false_iff_ne]
      exact ⟨fun hh => ha.1 hh.symm, fun hh => hb.1 hh.symm⟩
    rw [@List.filter_cons_of_pos Member (fun mem => !(mem.get_id == a) && !(mem.get_id == b)) x t hpred, ih ha.2 hb.2]

theorem filter_excl_one (l : List Member) (a b : UuidSimple)
    (hnd : (l.map Member.get_id).Nodup) (hb : b ∈ l.map Member.get_id)
    (ha : a ∉ l.map Member.get_id) :
    (l.filter (fun mem => !(mem.get_id == a) && !(mem.get_id == b))).length =
      l.length - 1 := by
  induction l with
  | nil => exact absurd hb (List.not_mem_nil b)
  | cons x t ih =>
    simp only [List.map_cons, List.nodup_cons] at hnd
    simp only [List.map_cons, List.mem_cons, not_or] at ha
    by_cases hxb : x.get_id = b
    · have hpred : (!(x.get_id == a) && !(x.get_id == b)) = false := by
        simp [hxb]
      rw [@List.filter_cons_of_neg Member (fun mem => !(mem.get_id == a) && !(mem.get_id == b)) x t (by simp [hpred])]
      have hbt : b ∉ t.map Member.get_id := hxb ▸ hnd.1
      rw [filter_excl_all t a b ha.2 hbt]
      simp
    · have hbt : b ∈ t.map Member.get_id := by
        rcases List.mem_cons.mp hb with h1 | h1
        · exact absurd h1.symm hxb
        · exact h1
      have hpred : (!(x.get_id == a) && !(x.get_id == b)) = true := by
        simp only [Bool.and_eq_true, Bool.not_eq_true', beq_eq_false_iff_ne]
        exact ⟨fun hh => ha.1 hh.symm, hxb⟩
      rw [@List.filter_cons_of_pos Member (fun mem => !(mem.get_id == a) && !(mem.get_id == b)) x t hpred]
      have hlen := List.length_pos_of_mem hbt
      rw [List.length_map] at hlen
      simp only [List.length_cons, ih hnd.2 hbt ha.2]
      omega

theorem filter_excl_two (l : List Member) (a b : UuidSimple)
    (hnd : (l.map Member.get_id).Nodup) (ha : a ∈ l.map Member.get_id)
    (hb : b ∈ l.map Member.get_id) (hab : a ≠ b) :
    (l.filter (fun mem => !(mem.get_id == a) && !(mem.get_id == b))).length =
      l.length - 2 := by
  induction l with
  | nil => exact absurd ha (List.not_mem_nil a)
  | cons x t ih =>
    simp only [List.map_cons, List.nodup_cons] at hnd
    by_cases hxa : x.get_id = a
    · have hpred : ¬ ((!(x.get_id == a) && !(x.get_id == b)) = true) := by
        simp [hxa]
      rw [@List.filter_cons_of_neg Member (fun mem => !(mem.get_id == a) && !(mem.get_id == b)) x t hpred]
      have hat : a ∉ t.map Member.get_id := hxa ▸ hnd.1
      have hbt : b ∈ t.map Member.get_id := by
        rcases List.mem_cons.mp hb with h1 | h1
        · exact absurd (h1.trans hxa).symm hab
        · exact h1
      have hlen := List.length_pos_of_mem hbt
      rw [List.length_map] at hlen
      rw [filter_excl_one t a b hnd.2 hbt hat]
      simp only [List.length_cons]
      omega
    · by_cases hxb : x.get_id = b
      · have hpred : ¬ ((!(x.get_id == a) && !(x.get_id == b)) = true) := by
          simp [hxb]
        rw [@List.filter_cons_of_neg Member (fun mem => !(mem.get_id == a) && !(mem.get_id == b)) x t hpred]
        have hbt : b ∉ t.map Member.get_id := hxb ▸ hnd.1
        have hat : a ∈ t.map Member.get_id := by
          rcases List.mem_cons.mp ha with h1 | h1
          · exact absurd (h1.trans hxb) hab
          · exact h1
        have hswap : t.filter (fun mem => !(mem.get_id == a) && !(mem.get_id == b)) =
            t.filter (fun mem => !(mem.get_id == b) && !(mem.get_id == a)) := by
          apply List.filter_congr
          intro mem _
          exact Bool.and_comm _ _
        have hlen := List.length_pos_of_mem hat
        rw [List.length_map] at hlen
        rw [hswap, filter_excl_one t b a hnd.2 hat hbt]
        simp only [List.length_cons]
        omega
      · have hat : a ∈ t.map Member.get_id := by
          rcases List.mem_cons.mp ha with h1 | h1
          · exact absurd h1.symm hxa
          · exact h1
        have hbt : b ∈ t.map Member.get_id := by
          rcases List.mem_cons.mp hb with h1 | h1
          · exact absurd h1.symm hxb
          · exact h1
        have hpred : (!(x.get_id == a) && !(x.get_id == b)) = true := by
          simp only [Bool.and_eq_true, Bool.not_eq_true', beq_eq_false_iff_ne]
          exact ⟨hxa, hxb⟩
        rw [@List.filter_cons_of_pos Member (fun mem => !(mem.get_id == a) && !(mem.get_id == b)) x t hpred]
        have hlen := two_mem_le_length (t.map Member.get_id) a b hat hbt hab
        rw [List.length_map] at hlen
        simp only [List.length_cons, ih hnd.2 hat hbt]
        omega

/-- C7: for any shuffle order of the stored member values and any distinct
sending and target members present in the list, `pingreq_targets` returns
members drawn from the list, excludes both the sender's and the target's
ids, and has length exactly min(PINGREQ_TARGETS, number of members - 2). -/
theorem pingreq_targets_spec (ml : MemberList) (shuffled : List Member)
    (sending target : Member)
    (hperm : shuffled.Perm ml.membersList)
    (hnd : (ml.membersList.map Member.get_id).Nodup)
    (hs : sending.get_id ∈ ml.membersList.map Member.get_id)
    (ht : target.get_id ∈ ml.membersList.map Member.get_id)
    (hne : sending.get_id ≠ target.get_id) :
    (pingreq_targets shuffled sending target).length =
      min PINGREQ_TARGETS (ml.membersList.length - 2) ∧
    ∀ mem ∈ pingreq_targets shuffled sending target,
      mem.get_id ≠ sending.get_id ∧ mem.get_id ≠ target.get_id ∧
        mem ∈ ml.membersList := by
  have hpm : (shuffled.map Member.get_id).Perm (ml.membersList.map Member.get_id) :=
    hperm.map Member.get_id
  have hnd2 : (shuffled.map Member.get_id).Nodup := hpm.nodup_iff.mpr hnd
  have hs2 : sending.get_id ∈ shuffled.map Member.get_id := hpm.mem_iff.mpr hs
  have ht2 : target.get_id ∈ shuffled.map Member.get_id := hpm.mem_iff.mpr ht
  constructor
  · unfold pingreq_targets
    rw [List.length_take, filter_excl_two shuffled _ _ hnd2 hs2 ht2 hne,
      hperm.length_eq]
  · intro mem hmem
    unfold pingreq_targets at hmem
    have hmf := List.take_subset _ _ hmem
    obtain ⟨hmemsh, hpred⟩ := List.mem_filter.mp hmf
    simp only [Bool.and_eq_true, Bool.not_eq_true', beq_eq_false_iff_ne] at hpred
    exact ⟨hpred.1, hpred.2, hperm.mem_iff.mp hmemsh⟩

/-- Witness for C7: three members a, b, c; sender a, target b, a concrete
shuffle; the result has length min(5, 3-2) = 1. -/
theorem pingreq_targets_spec_witness :
    (pingreq_targets [exMemberC, exMemberA, exMemberB] exMemberA exMemberB).length =
      min PINGREQ_TARGETS
        (({ members := [("a", exMemberA), ("b", exMemberB), ("c", exMemberC)],
            health := [("a", Health.Alive), ("b", Health.Alive), ("c", Health.Alive)] } :
          MemberList).membersList.length - 2) :=
  (pingreq_targets_spec
    { members := [("a", exMemberA), ("b", exMemberB), ("c", exMemberC)],
      health := [("a", Health.Alive), ("b", Health.Alive), ("c", Health.Alive)] }
    [exMemberC, exMemberA, exMemberB] exMemberA exMemberB
    (by decide) (by decide) (by decide) (by decide) (by decide)).1

/-- C8: `membership_for` returns the snapshot — the stored member record
and the stored health mapped 1:1 to the wire enumeration — exactly when the
id has both a member record and a health; it panics (`none`) when either is
absent, and under the member-implies-health invariant of reachable states
this is exactly when the id has no stored member entry. The operation takes
the list read-only, so it cannot modify it. -/
theorem membership_for_spec (ml : MemberList) (id : UuidSimple) :
    (∀ mem h, mapGet ml.members id = some mem → mapGet ml.health id = some h →
      ml.membership_for id = some { health := healthToProto h, member := mem.proto }) ∧
    ((mapGet ml.members id = none ∨ mapGet ml.health id = none) →
      ml.membership_for id = none) ∧
    ((∀ k, (mapGet ml.members k).isSome → (mapGet ml.health k).isSome) →
      (ml.membership_for id = none ↔ mapGet ml.members id = none)) := by
  have hsome : ∀ mem h, mapGet ml.members id = some mem → mapGet ml.health id = some h →
      ml.membership_for id = some { health := healthToProto h, member := mem.proto } := by
    intro mem h hm hh
    simp only [MemberList.membership_for, hh, hm]
  have hnone : (mapGet ml.members id = none ∨ mapGet ml.health id = none) →
      ml.membership_for id = none := by
    rintro (hm | hh)
    · cases hh2 : mapGet ml.health id with
      | none => simp only [MemberList.membership_for, hh2]
      | some h => simp only [MemberList.membership_for, hh2, hm]
    · simp only [MemberList.membership_for, hh]
  refine ⟨hsome, hnone, ?_⟩
  intro hco
  constructor
  · intro hn
    cases hm : mapGet ml.members id with
    | none => rfl
    | some mem =>
      have hhs := hco id (by rw [hm]; rfl)
      cases hh : mapGet ml.health id with
      | none => rw [hh] at hhs; exact absurd hhs (by simp)
      | some h =>
        rw [hsome mem h hm hh] at hn
        exact absurd hn (by simp)
  · intro hm
    exact hnone (Or.inl hm)

/-- Witness for C8: with ("a", Alive) stored, `membership_for "a"` is the
snapshot of the stored record with health ALIVE. -/
theorem membership_for_spec_witness :
    ({ members := [("a", exMemberA)], health := [("a", Health.Alive)] } :
      MemberList).membership_for "a" =
      some { health := healthToProto Health.Alive, member := exMemberA.proto } :=
  (membership_for_spec
    { members := [("a", exMemberA)], health := [("a", Health.Alive)] } "a").1
    exMemberA Health.Alive (by decide) (by decide)

/-- `insert_health` either leaves the state unchanged or only rewrites the
health map under the member's id. -/
theorem insert_health_cases (ml : MemberList) (m : Member) (h : Health) (b : Bool)
    (ml' : MemberList) (hres : ml.insert_health m h = (b, ml')) :
    ml' = ml ∨ ml' = { ml with health := mapInsert ml.health m.get_id h } := by
  cases hg : mapGet ml.health m.get_id with
  | none =>
    simp only [MemberList.insert_health, hg] at hres
    exact Or.inr (congrArg Prod.snd hres).symm
  | some ch =>
    simp only [MemberList.insert_health, hg] at hres
    by_cases hch : ch = h
    · rw [if_pos hch] at hres
      exact Or.inl (congrArg Prod.snd hres).symm
    · rw [if_neg hch] at hres
      exact Or.inr (congrArg Prod.snd hres).symm

/-- C9 counterexample: from the empty list, `insert_health` on a member
that was never inserted writes a health entry but no member record, so the
key set of the member map differs from the key set of the health map. -/
theorem member_health_pairing_cex :
    ((MemberList.new.insert_health exMemberA Health.Alive).2.members = []) ∧
    ((MemberList.new.insert_health exMemberA Health.Alive).2.health =
      [("a", Health.Alive)]) ∧
    ¬ ((mapGet (MemberList.new.insert_health exMemberA Health.Alive).2.members "a").isSome ↔
       (mapGet (MemberList.new.insert_health exMemberA Health.Alive).2.health "a").isSome) := by
  decide

/-- C9 (amended): in every state reachable from `MemberList::new` by
`insert` and `insert_health` calls, every id with a member record also has
exactly one stored health — the member map's key set is contained in the
health map's. Equality of the two key sets fails (see the counterexample):
`insert_health` on a never-inserted id populates only the health map. -/
theorem member_keys_subset_health (ml : MemberList) (hr : Reachable ml) :
    ∀ id, (mapGet ml.members id).isSome → (mapGet ml.health id).isSome := by
  induction hr with
  | new =>
    intro id h
    exact absurd h (by simp [MemberList.new, mapGet])
  | @ins ml0 m h b ml1 hr0 hins ih =>
    intro id hm
    rcases insert_cases ml0 m h (b, ml1) hins with hcase | hcase
    · have hml : ml1 = ml0 := congrArg Prod.snd hcase
      rw [hml] at hm ⊢
      exact ih id hm
    · have hml : ml1 = { members := mapInsert ml0.members m.get_id m,
                         health := mapInsert ml0.health m.get_id h } :=
        congrArg Prod.snd hcase
      rw [hml] at hm ⊢
      by_cases hid : id = m.get_id
      · subst hid
        simp only [mapGet_mapInsert_self, Option.isSome_some]
      · simp only at hm ⊢
        rw [mapGet_mapInsert_ne _ _ _ _ hid] at hm
        rw [mapGet_mapInsert_ne _ _ _ _ hid]
        exact ih id hm
  | @insH ml0 m h b ml1 hr0 hins ih =>
    intro id hm
    rcases insert_health_cases ml0 m h b ml1 hins with hcase | hcase
    · rw [hcase] at hm ⊢
      exact ih id hm
    · rw [hcase] at hm ⊢
      simp only at hm ⊢
      by_cases hid : id = m.get_id
      · subst hid
        simp only [mapGet_mapInsert_self, Option.isSome_some]
      · rw [mapGet_mapInsert_ne _ _ _ _ hid]
        exact ih id hm

/-- Witness for C9 (amended): in the reachable state holding member "a",
the health of "a" is indeed present. -/
theorem member_keys_subset_health_witness :
    (mapGet ({ members := [("a", exMemberA)], health := [("a", Health.Alive)] } :
      MemberList).health "a").isSome :=
  member_keys_subset_health _
    (Reachable.ins Reachable.new
      (by decide : MemberList.new.insert exMemberA Health.Alive =
        some (true, { members := [("a", exMemberA)], health := [("a", Health.Alive)] })))
    "a" (by decide)

/-- C5 counterexample: with "a" stored Alive at incarnation 0, inserting
the Suspect rumor about "a" at incarnation 0 (which is ≥ the current
incarnation) returns true but stores the pair (0, Suspect) verbatim: the
stored incarnation (0, since the stored record is the rumor's) is not
strictly greater than the rumor's incarnation 0 and the stored health is
not Alive — `MemberList::insert` performs no self-refutation. -/
theorem self_refutation_cex :
    (({ members := [("a", exMemberA)], health := [("a", Health.Alive)] } :
        MemberList).insert exMemberA Health.Suspect =
      some (true, { members := [("a", exMemberA)], health := [("a", Health.Suspect)] })) ∧
    exMemberA.get_incarnation = 0 ∧
    mapGet ([("a", Health.Suspect)] : List (UuidSimple × Health)) "a" ≠
      some Health.Alive := by
  decide

/-- C5 (amended): `MemberList::insert` contains no self-refutation path and
treats a rumor about any id — the process's own included — by the ordinary
merge rules: for a non-Alive rumor about a stored id with incarnation at
least the stored one, an accepting insert stores exactly the rumor's member
record and health (no incarnation bump, no Alive reset), and a rejecting
insert leaves the list unchanged. -/
theorem self_refutation_amended (ml : MemberList) (m : Member) (h : Health) (cur : Member)
    (hcur : mapGet ml.members m.get_id = some cur)
    (hge : cur.get_incarnation ≤ m.get_incarnation)
    (hna : h ≠ Health.Alive) (b : Bool) (ml' : MemberList)
    (hres : ml.insert m h = some (b, ml')) :
    (b = true → mapGet ml'.members m.get_id = some m ∧
      mapGet ml'.health m.get_id = some h) ∧
    (b = false → ml' = ml) := by
  rcases insert_cases ml m h (b, ml') hres with hcase | hcase
  · have hb : b = false := congrArg Prod.fst hcase
    have hml : ml' = ml := congrArg Prod.snd hcase
    subst hb
    exact ⟨fun hh => absurd hh (by simp), fun _ => hml⟩
  · have hb : b = true := congrArg Prod.fst hcase
    have hml : ml' = { members := mapInsert ml.members m.get_id m,
                       health := mapInsert ml.health m.get_id h } :=
      congrArg Prod.snd hcase
    subst hb
    refine ⟨fun _ => ?_, fun hh => absurd hh (by simp)⟩
    rw [hml]
    exact ⟨mapGet_mapInsert_self _ _ _, mapGet_mapInsert_self _ _ _⟩

/-- Witness for C5 (amended) at the counterexample input: the accepted
Suspect rumor about "a" is stored verbatim. -/
theorem self_refutation_amended_witness :
    mapGet ({ members := [("a", exMemberA)], health := [("a", Health.Suspect)] } :
        MemberList).members exMemberA.get_id = some exMemberA :=
  (((self_refutation_amended
      { members := [("a", exMemberA)], health := [("a", Health.Alive)] }
      exMemberA Health.Suspect exMemberA (by decide) (by decide) (by decide) true
      { members := [("a", exMemberA)], health := [("a", Health.Suspect)] }
      (by decide)).1) rfl).1

end Habitat
